import Mathlib

/-!
Verification development for the robust pivot-calibration core described by the
repository's notebooks (`doc/notebooks/RANSAC.ipynb` and the tracking-error
notebook).  The notebooks drive external library routines
(`pivot_calibration`, `pivot_calibration_with_ransac`), so the calibrator
itself is modelled from the specification: rational arithmetic stands in for
floating point, squared Euclidean lengths stand in for Euclidean lengths
(the square root is monotone, so all comparisons agree), and the
"Algebraic One Step" least-squares solve is realised by the normal equations
reduced to a 3-by-3 Schur-complement system solved with Cramer's rule.
-/

namespace PivotCal

/-- Column 3-vector with rational entries (one tracked coordinate triple). -/
structure Vec3 where
  x : ℚ
  y : ℚ
  z : ℚ
deriving DecidableEq

namespace Vec3

@[ext] theorem extVec {a b : Vec3} (hx : a.x = b.x) (hy : a.y = b.y) (hz : a.z = b.z) :
    a = b := by
  cases a; cases b; simp_all

def add (a b : Vec3) : Vec3 := ⟨a.x + b.x, a.y + b.y, a.z + b.z⟩

def sub (a b : Vec3) : Vec3 := ⟨a.x - b.x, a.y - b.y, a.z - b.z⟩

def zero : Vec3 := ⟨0, 0, 0⟩

def smul (q : ℚ) (v : Vec3) : Vec3 := ⟨q * v.x, q * v.y, q * v.z⟩

def dot (a b : Vec3) : ℚ := a.x * b.x + a.y * b.y + a.z * b.z

/-- Squared Euclidean length. -/
def normSq (v : Vec3) : ℚ := dot v v

instance : Add Vec3 := ⟨add⟩
instance : Sub Vec3 := ⟨sub⟩
instance : Zero Vec3 := ⟨zero⟩
instance : SMul ℚ Vec3 := ⟨smul⟩

@[simp] theorem add_def (a b : Vec3) : a + b = ⟨a.x + b.x, a.y + b.y, a.z + b.z⟩ := rfl
@[simp] theorem sub_def (a b : Vec3) : a - b = ⟨a.x - b.x, a.y - b.y, a.z - b.z⟩ := rfl
@[simp] theorem zero_def : (0 : Vec3) = ⟨0, 0, 0⟩ := rfl
@[simp] theorem smul_def (q : ℚ) (v : Vec3) : q • v = ⟨q * v.x, q * v.y, q * v.z⟩ := rfl
@[simp] theorem dot_def (a b : Vec3) : dot a b = a.x * b.x + a.y * b.y + a.z * b.z := rfl
@[simp] theorem normSq_def (v : Vec3) : normSq v = v.x * v.x + v.y * v.y + v.z * v.z := rfl

theorem normSq_nonneg (v : Vec3) : 0 ≤ normSq v := by
  simp only [normSq_def]
  nlinarith [mul_self_nonneg v.x, mul_self_nonneg v.y, mul_self_nonneg v.z]

end Vec3

/-- Rational 3-by-3 matrix (a rotation block of a tracked pose). -/
structure Mat3 where
  a11 : ℚ
  a12 : ℚ
  a13 : ℚ
  a21 : ℚ
  a22 : ℚ
  a23 : ℚ
  a31 : ℚ
  a32 : ℚ
  a33 : ℚ
deriving DecidableEq

namespace Mat3

@[ext] theorem extMat {A B : Mat3}
    (h11 : A.a11 = B.a11) (h12 : A.a12 = B.a12) (h13 : A.a13 = B.a13)
    (h21 : A.a21 = B.a21) (h22 : A.a22 = B.a22) (h23 : A.a23 = B.a23)
    (h31 : A.a31 = B.a31) (h32 : A.a32 = B.a32) (h33 : A.a33 = B.a33) : A = B := by
  cases A; cases B; simp_all

def add (A B : Mat3) : Mat3 :=
  ⟨A.a11 + B.a11, A.a12 + B.a12, A.a13 + B.a13,
   A.a21 + B.a21, A.a22 + B.a22, A.a23 + B.a23,
   A.a31 + B.a31, A.a32 + B.a32, A.a33 + B.a33⟩

def sub (A B : Mat3) : Mat3 :=
  ⟨A.a11 - B.a11, A.a12 - B.a12, A.a13 - B.a13,
   A.a21 - B.a21, A.a22 - B.a22, A.a23 - B.a23,
   A.a31 - B.a31, A.a32 - B.a32, A.a33 - B.a33⟩

def zero : Mat3 := ⟨0, 0, 0, 0, 0, 0, 0, 0, 0⟩

def id3 : Mat3 := ⟨1, 0, 0, 0, 1, 0, 0, 0, 1⟩

def smul (q : ℚ) (A : Mat3) : Mat3 :=
  ⟨q * A.a11, q * A.a12, q * A.a13,
   q * A.a21, q * A.a22, q * A.a23,
   q * A.a31, q * A.a32, q * A.a33⟩

def transpose (A : Mat3) : Mat3 :=
  ⟨A.a11, A.a21, A.a31, A.a12, A.a22, A.a32, A.a13, A.a23, A.a33⟩

def mul (A B : Mat3) : Mat3 :=
  ⟨A.a11 * B.a11 + A.a12 * B.a21 + A.a13 * B.a31,
   A.a11 * B.a12 + A.a12 * B.a22 + A.a13 * B.a32,
   A.a11 * B.a13 + A.a12 * B.a23 + A.a13 * B.a33,
   A.a21 * B.a11 + A.a22 * B.a21 + A.a23 * B.a31,
   A.a21 * B.a12 + A.a22 * B.a22 + A.a23 * B.a32,
   A.a21 * B.a13 + A.a22 * B.a23 + A.a23 * B.a33,
   A.a31 * B.a11 + A.a32 * B.a21 + A.a33 * B.a31,
   A.a31 * B.a12 + A.a32 * B.a22 + A.a33 * B.a32,
   A.a31 * B.a13 + A.a32 * B.a23 + A.a33 * B.a33⟩

def mulVec (A : Mat3) (v : Vec3) : Vec3 :=
  ⟨A.a11 * v.x + A.a12 * v.y + A.a13 * v.z,
   A.a21 * v.x + A.a22 * v.y + A.a23 * v.z,
   A.a31 * v.x + A.a32 * v.y + A.a33 * v.z⟩

/-- Determinant of a 3-by-3 matrix, by cofactor expansion along the first row. -/
def det3 (A : Mat3) : ℚ :=
  A.a11 * (A.a22 * A.a33 - A.a23 * A.a32)
    - A.a12 * (A.a21 * A.a33 - A.a23 * A.a31)
    + A.a13 * (A.a21 * A.a32 - A.a22 * A.a31)

instance : Add Mat3 := ⟨add⟩
instance : Sub Mat3 := ⟨sub⟩
instance : Zero Mat3 := ⟨zero⟩
instance : SMul ℚ Mat3 := ⟨smul⟩

/-- Cramer's-rule solution of the 3-by-3 linear system `A v = r`
(meaningful when `det3 A` is nonzero). -/
def solve3 (A : Mat3) (r : Vec3) : Vec3 :=
  let d := det3 A
  ⟨(det3 ⟨r.x, A.a12, A.a13, r.y, A.a22, A.a23, r.z, A.a32, A.a33⟩) / d,
   (det3 ⟨A.a11, r.x, A.a13, A.a21, r.y, A.a23, A.a31, r.z, A.a33⟩) / d,
   (det3 ⟨A.a11, A.a12, r.x, A.a21, A.a22, r.y, A.a31, A.a32, r.z⟩) / d⟩

theorem solve3_correct (A : Mat3) (r : Vec3) (hd : det3 A ≠ 0) :
    A.mulVec (solve3 A r) = r := by
  cases A; cases r
  simp only [det3] at hd
  apply Vec3.extVec <;>
    · simp only [mulVec, solve3, det3]
      field_simp
      ring

end Mat3

/-- One sampled tool pose: 3-by-3 rotation block `R` and translation `t`
of a 4-by-4 homogeneous tracking matrix. -/
structure RigidPose where
  R : Mat3
  t : Vec3
deriving DecidableEq

/-- Modelled from the spec: the error taxonomy of the calibration core
(the notebooks call an external library, so the errors are taken from the
specification's error-handling design). -/
inductive CalibrationError where
  | insufficientData
  | degenerateGeometry
  | consensusNotReached
  | invalidPose
deriving DecidableEq

/-- Result of a pivot calibration: tool-tip offset in the marker frame, pivot
point in world coordinates, and the squared RMS residual about the centroid
of the fitted pivot predictions. -/
structure PivotSolution where
  offset : Vec3
  pivot : Vec3
  residualSq : ℚ
deriving DecidableEq

/-- Sum of a matrix-valued function over a pose list. -/
def sumMat (f : RigidPose → Mat3) : List RigidPose → Mat3
  | [] => Mat3.zero
  | q :: l => Mat3.add (f q) (sumMat f l)

/-- Sum of a vector-valued function over a pose list. -/
def sumVec (f : RigidPose → Vec3) : List RigidPose → Vec3
  | [] => Vec3.zero
  | q :: l => Vec3.add (f q) (sumVec f l)

/-- Sum of a rational-valued function over a pose list. -/
def sumQ (f : RigidPose → ℚ) : List RigidPose → ℚ
  | [] => 0
  | q :: l => f q + sumQ f l

/-- Pivot position in world coordinates predicted by one pose for a candidate
tool-tip offset: `R_i * offset + t_i`. -/
def predPivot (q : RigidPose) (o : Vec3) : Vec3 := (q.R.mulVec o) + q.t

/-- Sum over the poses of `R_iᵀ R_i` (upper-left block of the normal matrix
`AᵀA` of the stacked 3N-by-6 AOS system). -/
def sumRtR (poses : List RigidPose) : Mat3 := sumMat (fun q => (q.R.transpose).mul q.R) poses

/-- Sum over the poses of `R_i` (the `AᵀA` block coupling offset and pivot,
up to sign and transposition). -/
def sumR (poses : List RigidPose) : Mat3 := sumMat (fun q => q.R) poses

/-- Sum over the poses of `R_iᵀ t_i` (offset part of `Aᵀb`, up to sign). -/
def sumRtT (poses : List RigidPose) : Vec3 := sumVec (fun q => (q.R.transpose).mulVec q.t) poses

/-- Sum over the poses of `t_i` (pivot part of `Aᵀb`, up to sign). -/
def sumT (poses : List RigidPose) : Vec3 := sumVec (fun q => q.t) poses

/-- Scaled Schur complement of the normal matrix of the stacked AOS system:
`N * Σ R_iᵀR_i - (Σ R_i)ᵀ (Σ R_i)`.  The stacked system is rank-deficient
exactly when this 3-by-3 matrix is singular (for N > 0). -/
def aosMatrix (poses : List RigidPose) : Mat3 :=
  ((poses.length : ℚ) • sumRtR poses) - ((sumR poses).transpose.mul (sumR poses))

/-- Right-hand side of the reduced offset equation `aosMatrix * offset = aosRhs`. -/
def aosRhs (poses : List RigidPose) : Vec3 :=
  ((sumR poses).transpose.mulVec (sumT poses)) - ((poses.length : ℚ) • sumRtT poses)

/-- Squared-RMS spread of the fitted pivot predictions about their centroid,
computed in one pass: `Σ‖pred_i‖²/N - ‖Σ pred_i‖²/N²`. -/
def residualSqOf (poses : List RigidPose) (o : Vec3) : ℚ :=
  let n : ℚ := poses.length
  sumQ (fun q => Vec3.normSq (predPivot q o)) poses / n
    - Vec3.normSq (sumVec (fun q => predPivot q o) poses) / (n * n)

/-- Modelled from the spec: the deterministic least-squares pivot calibration
(`PivotSolver` / `solve_pivot`); the notebooks call the external
`sksurgerycalibration` routine `pivot_calibration`, which is not part of the
repository.  For each pose `R_i * offset - p = -t_i`; stacking the N poses
gives the 3N-by-6 system `A x = b`, `x = [offset; p]`, solved in least squares
via the normal equations: eliminating `p` (its normal equation gives
`p = (Σ t_i + (Σ R_i) offset)/N`) leaves the 3-by-3 system
`aosMatrix * offset = aosRhs`, solved by Cramer's rule.  Fails fast with
`insufficientData` when N < 4 and `degenerateGeometry` when the reduced
system is singular. -/
def solve_pivot (poses : List RigidPose) : Except CalibrationError PivotSolution :=
  if poses.length < 4 then .error .insufficientData
  else if Mat3.det3 (aosMatrix poses) = 0 then .error .degenerateGeometry
  else
    let o := Mat3.solve3 (aosMatrix poses) (aosRhs poses)
    let p := ((poses.length : ℚ))⁻¹ • (sumT poses + (sumR poses).mulVec o)
    .ok ⟨o, p, residualSqOf poses o⟩

/-- Row block `i` of `A x - b` for the stacked AOS system, at `x = [o; p]`:
the pose contributes rows `[R_i, -I_3]` of `A` and `-t_i` of `b`, so the block
is `R_i o - p + t_i`. -/
def aosRes (q : RigidPose) (o p : Vec3) : Vec3 := (q.R.mulVec o) - p + q.t

/-- Squared norm `‖A x - b‖²` of the stacked 3N-by-6 AOS system `A x = b`
with `x = [o; p]`: each pose contributes the 3-by-3 blocks `R_i` and `-I_3`
to `A` and `-t_i` to `b`. -/
def stackedResidualSq (poses : List RigidPose) (o p : Vec3) : ℚ :=
  sumQ (fun q => Vec3.normSq (aosRes q o p)) poses

/-- Mean over the poses of the predicted pivot positions `R_i o + t_i`
(their centroid). -/
def predCentroid (poses : List RigidPose) (o : Vec3) : Vec3 :=
  ((poses.length : ℚ))⁻¹ • sumVec (fun q => predPivot q o) poses

/-- Squared RMS, over the poses, of the Euclidean distance between each
predicted pivot position `R_i o + t_i` and the centroid of those
predictions — the spec's residual convention, written exactly as stated. -/
def rmsAboutCentroidSq (poses : List RigidPose) (o : Vec3) : ℚ :=
  sumQ (fun q => Vec3.normSq (predPivot q o - predCentroid poses o)) poses
    / (poses.length : ℚ)

namespace Vec3

theorem smul_smul' (a b : ℚ) (v : Vec3) : a • (b • v) = (a * b) • v := by
  simp; refine ⟨by ring, by ring, by ring⟩

theorem dot_smul_left (a : ℚ) (u v : Vec3) : dot (a • u) v = a * dot u v := by
  simp; ring

theorem normSq_smul (a : ℚ) (v : Vec3) : normSq (a • v) = a * a * normSq v := by
  simp; ring

end Vec3

namespace Mat3

theorem mulVec_add (A : Mat3) (u v : Vec3) :
    A.mulVec (u + v) = A.mulVec u + A.mulVec v := by
  simp [mulVec]; refine ⟨by ring, by ring, by ring⟩

theorem mulVec_sub (A : Mat3) (u v : Vec3) :
    A.mulVec (u - v) = A.mulVec u - A.mulVec v := by
  simp [mulVec]; refine ⟨by ring, by ring, by ring⟩

theorem mulVec_smulVec (A : Mat3) (a : ℚ) (v : Vec3) :
    A.mulVec (a • v) = a • A.mulVec v := by
  simp [mulVec]; refine ⟨by ring, by ring, by ring⟩

theorem add_mulVec (A B : Mat3) (v : Vec3) :
    (Mat3.add A B).mulVec v = A.mulVec v + B.mulVec v := by
  simp [mulVec, Mat3.add]; refine ⟨by ring, by ring, by ring⟩

theorem sub_mulVec (A B : Mat3) (v : Vec3) :
    (A - B).mulVec v = A.mulVec v - B.mulVec v := by
  show (Mat3.sub A B).mulVec v = _
  simp [mulVec, Mat3.sub]; refine ⟨by ring, by ring, by ring⟩

theorem smul_mulVec (a : ℚ) (A : Mat3) (v : Vec3) :
    (a • A).mulVec v = a • A.mulVec v := by
  show (Mat3.smul a A).mulVec v = _
  simp [mulVec, Mat3.smul]; refine ⟨by ring, by ring, by ring⟩

theorem mul_mulVec (A B : Mat3) (v : Vec3) :
    (A.mul B).mulVec v = A.mulVec (B.mulVec v) := by
  simp [mulVec, mul]; refine ⟨by ring, by ring, by ring⟩

theorem zero_mulVec (v : Vec3) : Mat3.zero.mulVec v = 0 := by
  simp [mulVec, zero]

theorem transpose_add (A B : Mat3) :
    (Mat3.add A B).transpose = Mat3.add A.transpose B.transpose := by
  simp [transpose, Mat3.add]

theorem dot_mulVec (A : Mat3) (u v : Vec3) :
    Vec3.dot (A.mulVec u) v = Vec3.dot u (A.transpose.mulVec v) := by
  simp [mulVec, transpose]; ring

end Mat3

theorem sumQ_add (f g : RigidPose → ℚ) (l : List RigidPose) :
    sumQ (fun q => f q + g q) l = sumQ f l + sumQ g l := by
  induction l with
  | nil => simp [sumQ]
  | cons q l ih => simp [sumQ, ih]; ring

theorem sumQ_nonneg (f : RigidPose → ℚ) (l : List RigidPose) (h : ∀ q, 0 ≤ f q) :
    0 ≤ sumQ f l := by
  induction l with
  | nil => simp [sumQ]
  | cons q l ih => simpa [sumQ] using add_nonneg (h q) ih

theorem sumQ_congr (f g : RigidPose → ℚ) (l : List RigidPose) (h : ∀ q, f q = g q) :
    sumQ f l = sumQ g l := by
  induction l with
  | nil => rfl
  | cons q l ih => simp [sumQ, ih, h]

theorem sumVec_add (f g : RigidPose → Vec3) (l : List RigidPose) :
    sumVec (fun q => f q + g q) l = sumVec f l + sumVec g l := by
  induction l with
  | nil => simp [sumVec, Vec3.add, Vec3.zero]
  | cons q l ih =>
      simp only [sumVec, ih]
      show Vec3.add _ _ = Vec3.add _ _
      simp [Vec3.add]; refine ⟨by ring, by ring, by ring⟩

theorem sumVec_sub (f g : RigidPose → Vec3) (l : List RigidPose) :
    sumVec (fun q => f q - g q) l = sumVec f l - sumVec g l := by
  induction l with
  | nil => simp [sumVec, Vec3.add, Vec3.zero]
  | cons q l ih =>
      simp only [sumVec, ih]
      show Vec3.add _ _ = _
      simp [Vec3.add]; refine ⟨by ring, by ring, by ring⟩

theorem sumVec_const (c : Vec3) (l : List RigidPose) :
    sumVec (fun _ => c) l = (l.length : ℚ) • c := by
  induction l with
  | nil => simp [sumVec, Vec3.zero]
  | cons q l ih =>
      simp only [sumVec, ih, List.length_cons]
      show Vec3.add _ _ = _
      push_cast
      simp [Vec3.add]; refine ⟨by ring, by ring, by ring⟩

theorem sumVec_mulVec (g : RigidPose → Mat3) (v : Vec3) (l : List RigidPose) :
    sumVec (fun q => (g q).mulVec v) l = (sumMat g l).mulVec v := by
  induction l with
  | nil => simp [sumVec, sumMat, Mat3.zero_mulVec, Vec3.zero]
  | cons q l ih => simp [sumVec, sumMat, Mat3.add_mulVec, ih, Vec3.add]

theorem sumQ_dot_const (c : Vec3) (f : RigidPose → Vec3) (l : List RigidPose) :
    sumQ (fun q => Vec3.dot c (f q)) l = Vec3.dot c (sumVec f l) := by
  induction l with
  | nil => simp [sumQ, sumVec, Vec3.zero]
  | cons q l ih =>
      simp only [sumQ, sumVec, ih]
      show _ = Vec3.dot c (Vec3.add _ _)
      simp [Vec3.add]; ring

theorem sumMat_transpose (g : RigidPose → Mat3) (l : List RigidPose) :
    sumMat (fun q => (g q).transpose) l = (sumMat g l).transpose := by
  induction l with
  | nil => simp [sumMat, Mat3.transpose, Mat3.zero]
  | cons q l ih => simp [sumMat, ih, Mat3.transpose_add]

namespace Vec3

instance : Neg Vec3 := ⟨fun v => ⟨-v.x, -v.y, -v.z⟩⟩

@[simp] theorem neg_def (v : Vec3) : -v = ⟨-v.x, -v.y, -v.z⟩ := rfl

@[simp] theorem addFn_def (a b : Vec3) :
    Vec3.add a b = ⟨a.x + b.x, a.y + b.y, a.z + b.z⟩ := rfl

instance : AddCommGroup Vec3 where
  add a b := a + b
  zero := 0
  neg v := -v
  sub a b := a - b
  nsmul := nsmulRec
  zsmul := zsmulRec
  add_assoc a b c := by apply extVec <;> simp <;> ring
  zero_add a := by apply extVec <;> simp
  add_zero a := by apply extVec <;> simp
  add_comm a b := by apply extVec <;> simp <;> ring
  neg_add_cancel a := by apply extVec <;> simp
  sub_eq_add_neg a b := by apply extVec <;> simp <;> ring

instance : Module ℚ Vec3 where
  smul a v := a • v
  one_smul v := by apply extVec <;> simp
  mul_smul a b v := by apply extVec <;> simp <;> ring
  smul_zero a := by apply extVec <;> simp
  smul_add a u v := by apply extVec <;> simp <;> ring
  add_smul a b v := by apply extVec <;> simp <;> ring
  zero_smul v := by apply extVec <;> simp

@[simp] theorem dot_zero_right (c : Vec3) : dot c 0 = 0 := by simp

theorem dot_matVec_split (A : Mat3) (d e w : Vec3) :
    dot (A.mulVec d - e) w = dot d (A.transpose.mulVec w) - dot e w := by
  simp [Mat3.mulVec, Mat3.transpose]; ring

end Vec3

theorem sumQ_sub (f g : RigidPose → ℚ) (l : List RigidPose) :
    sumQ (fun q => f q - g q) l = sumQ f l - sumQ g l := by
  induction l with
  | nil => simp [sumQ]
  | cons q l ih => simp [sumQ, ih]; ring

/-- Sum of the AOS row-block residuals over the poses. -/
theorem sum_aosRes (poses : List RigidPose) (o p : Vec3) :
    sumVec (fun q => aosRes q o p) poses
      = (sumR poses).mulVec o + sumT poses - (poses.length : ℚ) • p := by
  induction poses with
  | nil =>
      apply Vec3.extVec <;>
        simp [sumVec, sumR, sumT, sumMat, Mat3.zero, Mat3.mulVec, Vec3.zero]
  | cons q l ih =>
      show Vec3.add (aosRes q o p) (sumVec (fun q => aosRes q o p) l) = _
      rw [show Vec3.add (aosRes q o p) (sumVec (fun q => aosRes q o p) l)
            = aosRes q o p + sumVec (fun q => aosRes q o p) l from rfl, ih]
      show _ = (Mat3.add q.R (sumR l)).mulVec o + (Vec3.add q.t (sumT l)) - _
      apply Vec3.extVec <;>
        · simp [aosRes, Mat3.add, Mat3.mulVec, Vec3.add, List.length_cons]
          ring

/-- Sum of `R_iᵀ` times the AOS row-block residuals over the poses. -/
theorem sum_Rt_aosRes (poses : List RigidPose) (o p : Vec3) :
    sumVec (fun q => (q.R.transpose).mulVec (aosRes q o p)) poses
      = (sumRtR poses).mulVec o + sumRtT poses - (sumR poses).transpose.mulVec p := by
  induction poses with
  | nil =>
      apply Vec3.extVec <;>
        simp [sumVec, sumRtR, sumRtT, sumR, sumMat, Mat3.zero, Mat3.mulVec,
          Mat3.transpose, Vec3.zero]
  | cons q l ih =>
      show Vec3.add ((q.R.transpose).mulVec (aosRes q o p))
            (sumVec (fun q => (q.R.transpose).mulVec (aosRes q o p)) l) = _
      rw [show Vec3.add ((q.R.transpose).mulVec (aosRes q o p))
            (sumVec (fun q => (q.R.transpose).mulVec (aosRes q o p)) l)
            = (q.R.transpose).mulVec (aosRes q o p)
              + sumVec (fun q => (q.R.transpose).mulVec (aosRes q o p)) l from rfl, ih]
      show _ = (Mat3.add ((q.R.transpose).mul q.R) (sumRtR l)).mulVec o
            + (Vec3.add ((q.R.transpose).mulVec q.t) (sumRtT l))
            - (Mat3.add q.R (sumR l)).transpose.mulVec p
      apply Vec3.extVec <;>
        · simp [aosRes, Mat3.add, Mat3.mul, Mat3.mulVec, Mat3.transpose, Vec3.add]
          ring

/-- Success characterisation of `solve_pivot`: it requires N ≥ 4 and a
nonsingular reduced system, and returns the Cramer solve plus the derived
pivot and residual. -/
theorem solve_pivot_ok_spec {poses : List RigidPose} {sol : PivotSolution}
    (h : solve_pivot poses = .ok sol) :
    4 ≤ poses.length ∧ Mat3.det3 (aosMatrix poses) ≠ 0 ∧
    sol.offset = Mat3.solve3 (aosMatrix poses) (aosRhs poses) ∧
    sol.pivot = ((poses.length : ℚ))⁻¹ • (sumT poses + (sumR poses).mulVec sol.offset) ∧
    sol.residualSq = residualSqOf poses sol.offset := by
  rw [solve_pivot] at h
  by_cases h1 : poses.length < 4
  · rw [if_pos h1] at h
    exact absurd h (by simp)
  rw [if_neg h1] at h
  by_cases h2 : Mat3.det3 (aosMatrix poses) = 0
  · rw [if_pos h2] at h
    exact absurd h (by simp)
  rw [if_neg h2] at h
  simp only [Except.ok.injEq] at h
  subst h
  exact ⟨by omega, h2, rfl, rfl, rfl⟩

theorem length_cast_ne_zero {poses : List RigidPose} (h4 : 4 ≤ poses.length) :
    ((poses.length : ℚ)) ≠ 0 := by
  have : poses.length ≠ 0 := by omega
  exact_mod_cast this

/-- Second block of the normal equations of the stacked AOS system
(derivative in the pivot unknown vanishes at the returned solution). -/
theorem solve_pivot_ne2 {poses : List RigidPose} {sol : PivotSolution}
    (h : solve_pivot poses = .ok sol) :
    (sumR poses).mulVec sol.offset + sumT poses = (poses.length : ℚ) • sol.pivot := by
  obtain ⟨h4, -, -, hp, -⟩ := solve_pivot_ok_spec h
  have hn := length_cast_ne_zero h4
  rw [hp, smul_inv_smul₀ hn, add_comm]

/-- First block of the normal equations of the stacked AOS system
(derivative in the offset unknown vanishes at the returned solution). -/
theorem solve_pivot_ne1 {poses : List RigidPose} {sol : PivotSolution}
    (h : solve_pivot poses = .ok sol) :
    (sumRtR poses).mulVec sol.offset + sumRtT poses
      = (sumR poses).transpose.mulVec sol.pivot := by
  obtain ⟨h4, hdet, ho, hp, -⟩ := solve_pivot_ok_spec h
  have hn := length_cast_ne_zero h4
  have hM := Mat3.solve3_correct (aosMatrix poses) (aosRhs poses) hdet
  rw [← ho, aosMatrix, aosRhs, Mat3.sub_mulVec, Mat3.smul_mulVec, Mat3.mul_mulVec] at hM
  have key : (sumR poses).transpose.mulVec ((sumR poses).mulVec sol.offset)
      = (poses.length : ℚ) • ((sumRtR poses).mulVec sol.offset)
        - ((sumR poses).transpose.mulVec (sumT poses)
            - (poses.length : ℚ) • sumRtT poses) := by
    rw [← hM]; abel
  rw [hp, Mat3.mulVec_smulVec, Mat3.mulVec_add, key]
  match_scalars <;> field_simp

/-- Both vanishing-gradient sums, in the summed residual form used by the
least-squares argument. -/
theorem solve_pivot_gradient_zero {poses : List RigidPose} {sol : PivotSolution}
    (h : solve_pivot poses = .ok sol) :
    sumVec (fun q => (q.R.transpose).mulVec (aosRes q sol.offset sol.pivot)) poses = 0
      ∧ sumVec (fun q => aosRes q sol.offset sol.pivot) poses = 0 := by
  constructor
  · rw [sum_Rt_aosRes, ← solve_pivot_ne1 h]; abel
  · rw [sum_aosRes, ← solve_pivot_ne2 h]; abel

/-- Expansion of one row-block residual about a base point. -/
theorem aosRes_expand (q : RigidPose) (o p d e : Vec3) :
    Vec3.normSq (aosRes q (o + d) (p + e))
      = Vec3.normSq (aosRes q o p)
        + 2 * Vec3.dot (q.R.mulVec d - e) (aosRes q o p)
        + Vec3.normSq (q.R.mulVec d - e) := by
  simp [aosRes, Mat3.mulVec, Vec3.add]
  ring

theorem sumQ_const_mul (a : ℚ) (f : RigidPose → ℚ) (l : List RigidPose) :
    sumQ (fun q => a * f q) l = a * sumQ f l := by
  induction l with
  | nil => simp [sumQ]
  | cons q l ih => simp [sumQ, ih]; ring

/-- A point of vanishing gradient minimises the stacked squared residual
(convexity of the least-squares objective). -/
theorem stacked_min_of_gradient_zero (poses : List RigidPose) (o p : Vec3)
    (h1 : sumVec (fun q => (q.R.transpose).mulVec (aosRes q o p)) poses = 0)
    (h2 : sumVec (fun q => aosRes q o p) poses = 0)
    (o' p' : Vec3) :
    stackedResidualSq poses o p ≤ stackedResidualSq poses o' p' := by
  have ho' : o' = o + (o' - o) := by abel
  have hp' : p' = p + (p' - p) := by abel
  have hexp : stackedResidualSq poses o' p'
      = stackedResidualSq poses o p
        + 2 * sumQ (fun q => Vec3.dot (q.R.mulVec (o' - o) - (p' - p)) (aosRes q o p)) poses
        + sumQ (fun q => Vec3.normSq (q.R.mulVec (o' - o) - (p' - p))) poses := by
    rw [stackedResidualSq]
    nth_rewrite 1 [ho', hp']
    rw [sumQ_congr _ _ _ (fun q => aosRes_expand q o p (o' - o) (p' - p)),
      sumQ_add, sumQ_add, sumQ_const_mul, stackedResidualSq]
  have hcross : sumQ (fun q => Vec3.dot (q.R.mulVec (o' - o) - (p' - p)) (aosRes q o p)) poses
      = 0 := by
    rw [sumQ_congr _ _ _ (fun q => Vec3.dot_matVec_split q.R (o' - o) (p' - p) (aosRes q o p)),
      sumQ_sub, sumQ_dot_const, sumQ_dot_const, h1, h2]
    simp
  rw [hexp, hcross]
  have hnn := sumQ_nonneg (fun q => Vec3.normSq (q.R.mulVec (o' - o) - (p' - p))) poses
    (fun q => Vec3.normSq_nonneg _)
  linarith

/-- Expanding a sum of squared distances to a fixed point. -/
theorem sumQ_normSq_sub_const (f : RigidPose → Vec3) (c : Vec3) (l : List RigidPose) :
    sumQ (fun q => Vec3.normSq (f q - c)) l
      = sumQ (fun q => Vec3.normSq (f q)) l - 2 * Vec3.dot c (sumVec f l)
        + (l.length : ℚ) * Vec3.normSq c := by
  induction l with
  | nil => simp [sumQ, sumVec, Vec3.zero]
  | cons q l ih =>
      simp only [sumQ, sumVec, List.length_cons, ih]
      show _ + _ = _ + _ - 2 * Vec3.dot c (Vec3.add (f q) (sumVec f l)) + _
      simp only [Vec3.addFn_def, Vec3.sub_def, Vec3.normSq_def, Vec3.dot_def]
      push_cast
      ring

/-- The one-pass residual accumulation of the solver agrees with the spec's
RMS-about-centroid formula (for a nonempty pose list). -/
theorem residualSqOf_eq_rms (poses : List RigidPose) (o : Vec3)
    (hn : ((poses.length : ℚ)) ≠ 0) :
    residualSqOf poses o = rmsAboutCentroidSq poses o := by
  rw [rmsAboutCentroidSq, predCentroid, sumQ_normSq_sub_const, residualSqOf,
    Vec3.dot_smul_left, Vec3.normSq_smul]
  have hs : Vec3.normSq (sumVec (fun q => predPivot q o) poses)
      = Vec3.dot (sumVec (fun q => predPivot q o) poses)
          (sumVec (fun q => predPivot q o) poses) := rfl
  rw [hs]
  field_simp
  ring

/-- Modelled from the spec: RANSAC configuration; all three options are
explicit fields with no hidden defaults. -/
structure RansacConfig where
  num_iterations : Nat
  inlier_threshold_mm : ℚ
  min_consensus_fraction : ℚ
deriving DecidableEq

/-- Modelled from the spec: an explicitly passed, seedable random source
(a linear congruential generator on the seed); the calibrator draws all
randomness from the seed passed per call, never from process-wide state. -/
def lcgNext (s : Nat) : Nat := (1103515245 * s + 12345) % 2147483648

/-- Draw `k` poses without replacement from `avail`, indices taken from the
seeded generator; returns the subset together with the advanced seed. -/
def sampleSubset : Nat → Nat → List RigidPose → List RigidPose × Nat
  | 0, s, _ => ([], s)
  | k + 1, s, avail =>
    if h : avail.length = 0 then ([], s)
    else
      let i := s % avail.length
      let q := avail.get ⟨i, Nat.mod_lt _ (Nat.pos_of_ne_zero h)⟩
      let next := sampleSubset k (lcgNext s) (avail.eraseIdx i)
      (q :: next.fst, next.snd)

/-- A pose is an inlier of a candidate model iff the Euclidean distance from
its predicted pivot position `R_i * offset + t_i` to the candidate pivot is
at most the threshold (both sides squared; the threshold is in mm). -/
def isInlier (thr : ℚ) (sol : PivotSolution) (q : RigidPose) : Bool :=
  Vec3.normSq (predPivot q sol.offset - sol.pivot) ≤ thr * thr

/-- Number of inliers of a candidate model, scored against the FULL pose set. -/
def countInliers (thr : ℚ) (sol : PivotSolution) (poses : List RigidPose) : Nat :=
  (poses.filter (fun q => isInlier thr sol q)).length

/-- One RANSAC candidate: the subset solve together with its consensus score. -/
structure RansacCandidate where
  sol : PivotSolution
  inlierCount : Nat
deriving DecidableEq

/-- One RANSAC trial: draw a 4-pose random subset, run the deterministic
solver on it, and score the candidate against the full pose set; trials whose
subset solve fails yield no candidate. -/
def ransacTrial (poses : List RigidPose) (thr : ℚ) (s : Nat) :
    Option RansacCandidate × Nat :=
  let drawn := sampleSubset 4 s poses
  match solve_pivot drawn.fst with
  | .error _ => (none, drawn.snd)
  | .ok sol => (some ⟨sol, countInliers thr sol poses⟩, drawn.snd)

/-- The given number of RANSAC trials, chaining the seed through. -/
def ransacTrials (poses : List RigidPose) (thr : ℚ) : Nat → Nat → List (Option RansacCandidate)
  | 0, _ => []
  | k + 1, s =>
    let t := ransacTrial poses thr s
    t.fst :: ransacTrials poses thr k t.snd

/-- Selection key of a candidate: inlier count, tie-broken by the residual of
the solver on the candidate's own subset. -/
def candKey (c : RansacCandidate) : Nat × ℚ := (c.inlierCount, c.sol.residualSq)

/-- Does candidate `b` strictly beat candidate `a`: more inliers, or equally
many inliers and a strictly smaller subset residual. -/
def beats (b a : RansacCandidate) : Bool :=
  if a.inlierCount < b.inlierCount then true
  else if a.inlierCount = b.inlierCount then
    if b.sol.residualSq < a.sol.residualSq then true else false
  else false

/-- Keep `c` unless the later candidate strictly beats it. -/
def pickBetter (c : RansacCandidate) : Option RansacCandidate → RansacCandidate
  | none => c
  | some d => if beats d c then d else c

/-- Select the best candidate of the trial list: largest inlier count, ties
broken by smaller subset residual, remaining ties by trial order. -/
def selectBest : List (Option RansacCandidate) → Option RansacCandidate
  | [] => none
  | none :: rest => selectBest rest
  | some c :: rest => some (pickBetter c (selectBest rest))

/-- Modelled from the spec: RANSAC robust pivot calibration
(`RansacPivotCalibrator` / `solve_pivot_ransac`); the notebooks call the
external `sksurgerycalibration` routine `pivot_calibration_with_ransac`,
which is not part of the repository.  Runs `num_iterations` seeded trials,
selects the candidate with the largest consensus, fails with
`consensusNotReached` when no candidate reaches `min_consensus_fraction`,
and otherwise refits the deterministic solver on ALL inliers of the best
candidate, returning the refined solution with the inlier count and
fraction. -/
def solve_pivot_ransac (poses : List RigidPose) (cfg : RansacConfig) (seed : Nat) :
    Except CalibrationError (PivotSolution × Nat × ℚ) :=
  if poses.length < 4 then .error .insufficientData
  else
    match selectBest (ransacTrials poses cfg.inlier_threshold_mm cfg.num_iterations seed) with
    | none => .error .consensusNotReached
    | some best =>
      if (best.inlierCount : ℚ) < cfg.min_consensus_fraction * (poses.length : ℚ) then
        .error .consensusNotReached
      else
        match solve_pivot (poses.filter (fun q => isInlier cfg.inlier_threshold_mm best.sol q)) with
        | .error e => .error e
        | .ok sol =>
          .ok (sol, best.inlierCount, (best.inlierCount : ℚ) / (poses.length : ℚ))

/-- Key order used by the selection: `d` is at most `c` when `c` has more
inliers, or equally many with a subset residual no larger. -/
def keyLe (d c : RansacCandidate) : Prop :=
  d.inlierCount < c.inlierCount
    ∨ (d.inlierCount = c.inlierCount ∧ c.sol.residualSq ≤ d.sol.residualSq)

theorem keyLe_refl (c : RansacCandidate) : keyLe c c := Or.inr ⟨rfl, le_refl _⟩

theorem beats_iff (d c : RansacCandidate) :
    beats d c = true
      ↔ (c.inlierCount < d.inlierCount
          ∨ (c.inlierCount = d.inlierCount ∧ d.sol.residualSq < c.sol.residualSq)) := by
  rw [beats]
  split_ifs with h1 h2 h3 <;> simp_all

theorem keyLe_of_beats {d c : RansacCandidate} (h : beats d c = true) : keyLe c d := by
  rcases (beats_iff d c).mp h with h' | ⟨he, hr⟩
  · exact Or.inl h'
  · exact Or.inr ⟨he, le_of_lt hr⟩

theorem keyLe_of_not_beats {d c : RansacCandidate} (h : ¬ beats d c = true) : keyLe d c := by
  rw [beats_iff] at h
  push_neg at h
  obtain ⟨h1, h2⟩ := h
  rcases Nat.lt_or_ge d.inlierCount c.inlierCount with hlt | hge
  · exact Or.inl hlt
  · have he : d.inlierCount = c.inlierCount := by omega
    exact Or.inr ⟨he, h2 he.symm⟩

theorem keyLe_trans {a b c : RansacCandidate} (h1 : keyLe a b) (h2 : keyLe b c) :
    keyLe a c := by
  rcases h1 with h1 | ⟨h1e, h1r⟩ <;> rcases h2 with h2 | ⟨h2e, h2r⟩
  · exact Or.inl (by omega)
  · exact Or.inl (by omega)
  · exact Or.inl (by omega)
  · exact Or.inr ⟨by omega, le_trans h2r h1r⟩

theorem keyLe_antisymm {a b : RansacCandidate} (h1 : keyLe a b) (h2 : keyLe b a) :
    candKey a = candKey b := by
  rcases h1 with h1 | ⟨h1e, h1r⟩ <;> rcases h2 with h2 | ⟨h2e, h2r⟩
  · omega
  · omega
  · omega
  · simp only [candKey, Prod.mk.injEq]
    exact ⟨h1e, le_antisymm h2r h1r⟩

theorem pickBetter_cases (c : RansacCandidate) (od : Option RansacCandidate) :
    pickBetter c od = c ∨ ∃ d, od = some d ∧ pickBetter c od = d := by
  cases od with
  | none => exact Or.inl rfl
  | some d =>
      rw [pickBetter]
      by_cases hb : beats d c = true
      · exact Or.inr ⟨d, rfl, by rw [if_pos hb]⟩
      · exact Or.inl (by rw [if_neg hb])

theorem keyLe_self_pickBetter (c : RansacCandidate) (od : Option RansacCandidate) :
    keyLe c (pickBetter c od) := by
  cases od with
  | none => exact keyLe_refl c
  | some d =>
      rw [pickBetter]
      by_cases hb : beats d c = true
      · rw [if_pos hb]
        exact keyLe_of_beats hb
      · rw [if_neg hb]
        exact keyLe_refl c

theorem keyLe_arg_pickBetter (c d : RansacCandidate) :
    keyLe d (pickBetter c (some d)) := by
  rw [pickBetter]
  by_cases hb : beats d c = true
  · rw [if_pos hb]
    exact keyLe_refl d
  · rw [if_neg hb]
    exact keyLe_of_not_beats hb

/-- A selected candidate is an element of the trial list. -/
theorem selectBest_mem {l : List (Option RansacCandidate)} {c : RansacCandidate}
    (h : selectBest l = some c) : some c ∈ l := by
  induction l generalizing c with
  | nil => simp [selectBest] at h
  | cons oc rest ih =>
      match oc with
      | none =>
          rw [selectBest] at h
          exact List.mem_cons_of_mem _ (ih h)
      | some a =>
          rw [selectBest, Option.some.injEq] at h
          rcases pickBetter_cases a (selectBest rest) with hc | ⟨d, hd, hc⟩
          · rw [hc] at h
            rw [← h]
            exact List.mem_cons_self _ _
          · rw [hc] at h
            rw [← h]
            exact List.mem_cons_of_mem _ (ih hd)

/-- When selection returns nothing, every trial failed. -/
theorem selectBest_none {l : List (Option RansacCandidate)}
    (h : selectBest l = none) : ∀ oc ∈ l, oc = none := by
  induction l with
  | nil => simp
  | cons oc rest ih =>
      match oc with
      | none =>
          rw [selectBest] at h
          intro x hx
          rcases List.mem_cons.mp hx with hx | hx
          · exact hx
          · exact ih h x hx
      | some a => rw [selectBest] at h; cases h

/-- The selected candidate maximises the key over all produced candidates. -/
theorem selectBest_max {l : List (Option RansacCandidate)} {c : RansacCandidate}
    (h : selectBest l = some c) :
    ∀ d : RansacCandidate, some d ∈ l → keyLe d c := by
  induction l generalizing c with
  | nil => simp [selectBest] at h
  | cons oc rest ih =>
      match oc with
      | none =>
          rw [selectBest] at h
          intro d hd
          rcases List.mem_cons.mp hd with hd | hd
          · exact absurd hd (by simp)
          · exact ih h d hd
      | some a =>
          rw [selectBest, Option.some.injEq] at h
          intro d hd
          rcases List.mem_cons.mp hd with hd | hd
          · obtain rfl : d = a := by injection hd
            rw [← h]
            exact keyLe_self_pickBetter _ (selectBest rest)
          · cases hrest : selectBest rest with
            | none => exact absurd (selectBest_none hrest _ hd) (by simp)
            | some e =>
                have h1 : keyLe d e := ih hrest d hd
                have h2 : keyLe e (pickBetter a (some e)) := keyLe_arg_pickBetter a e
                rw [hrest] at h
                rw [← h]
                exact keyLe_trans h1 h2

/-- The key of the selected candidate is invariant under permuting the trial
list: selection is by inlier count and tie-break key, not by position. -/
theorem selectBest_key_perm {l l' : List (Option RansacCandidate)}
    (h : List.Perm l l') :
    Option.map candKey (selectBest l) = Option.map candKey (selectBest l') := by
  cases hl : selectBest l with
  | none =>
      cases hl' : selectBest l' with
      | none => rfl
      | some c =>
          have hmem := selectBest_mem hl'
          have := selectBest_none hl _ ((List.Perm.mem_iff h).mpr hmem)
          cases this
  | some c =>
      cases hl' : selectBest l' with
      | none =>
          have hmem := selectBest_mem hl
          have := selectBest_none hl' _ ((List.Perm.mem_iff h).mp hmem)
          cases this
      | some c' =>
          have h1 : keyLe c' c :=
            selectBest_max hl c' ((List.Perm.mem_iff h).mpr (selectBest_mem hl'))
          have h2 : keyLe c c' :=
            selectBest_max hl' c ((List.Perm.mem_iff h).mp (selectBest_mem hl))
          show some (candKey c) = some (candKey c')
          exact congrArg some (keyLe_antisymm h2 h1)

/-- The calibrator always performs exactly the configured number of trials. -/
theorem ransacTrials_length (poses : List RigidPose) (thr : ℚ) :
    ∀ k s : Nat, (ransacTrials poses thr k s).length = k := by
  intro k
  induction k with
  | zero => intro s; rfl
  | succ k ih =>
      intro s
      rw [ransacTrials]
      simp [ih]

/-- Every entry of the trial list is the outcome of a single seeded trial. -/
theorem ransacTrials_shape (poses : List RigidPose) (thr : ℚ) :
    ∀ k s : Nat, ∀ oc ∈ ransacTrials poses thr k s,
      ∃ s' : Nat, oc = (ransacTrial poses thr s').fst := by
  intro k
  induction k with
  | zero => intro s oc hmem; cases hmem
  | succ k ih =>
      intro s oc hmem
      rw [ransacTrials] at hmem
      rcases List.mem_cons.mp hmem with hmem | hmem
      · exact ⟨s, hmem⟩
      · exact ih _ oc hmem

/-- A successful trial is a subset solve scored against the full pose set. -/
theorem ransacTrial_some {poses : List RigidPose} {thr : ℚ} {s : Nat}
    {c : RansacCandidate} (h : (ransacTrial poses thr s).fst = some c) :
    solve_pivot (sampleSubset 4 s poses).fst = .ok c.sol
      ∧ c.inlierCount = countInliers thr c.sol poses := by
  simp only [ransacTrial] at h
  cases hsp : solve_pivot (sampleSubset 4 s poses).fst with
  | error e =>
      rw [hsp] at h
      cases h
  | ok sol =>
      rw [hsp] at h
      have hc : some (⟨sol, countInliers thr sol poses⟩ : RansacCandidate) = some c := h
      injection hc with hc
      rw [← hc]
      exact ⟨rfl, rfl⟩

/-- Success characterisation of `solve_pivot_ransac`: there is a selected best
candidate whose consensus meets the threshold, and the returned solution is
the deterministic solver refit on ALL its inliers, with the inlier count and
fraction reported. -/
theorem solve_pivot_ransac_ok_spec {poses : List RigidPose} {cfg : RansacConfig}
    {seed : Nat} {sol : PivotSolution} {used : Nat} {frac : ℚ}
    (h : solve_pivot_ransac poses cfg seed = .ok (sol, used, frac)) :
    ∃ best : RansacCandidate,
      selectBest (ransacTrials poses cfg.inlier_threshold_mm cfg.num_iterations seed)
          = some best
        ∧ cfg.min_consensus_fraction * (poses.length : ℚ) ≤ (best.inlierCount : ℚ)
        ∧ solve_pivot (poses.filter (fun q => isInlier cfg.inlier_threshold_mm best.sol q))
            = .ok sol
        ∧ used = best.inlierCount
        ∧ frac = (best.inlierCount : ℚ) / (poses.length : ℚ) := by
  rw [solve_pivot_ransac] at h
  split at h
  · cases h
  split at h
  next hsel => cases h
  next best hsel =>
    split at h
    next => cases h
    next hcons =>
      split at h
      next e hfit => cases h
      next s2 hfit =>
        simp only [Except.ok.injEq, Prod.mk.injEq] at h
        obtain ⟨hs, hu, hf⟩ := h
        rw [hs] at hfit
        exact ⟨best, hsel, not_lt.mp hcons, hfit, hu.symm, hf.symm⟩

/-- The `RigidPose` ingestion invariant: the rotation block is orthonormal
with determinant +1. -/
def IsRotation (A : Mat3) : Prop := (A.transpose).mul A = Mat3.id3 ∧ Mat3.det3 A = 1

namespace Mat3

theorem mul_assoc' (A B C : Mat3) : (A.mul B).mul C = A.mul (B.mul C) := by
  apply extMat <;> simp [mul] <;> ring

theorem transpose_mul (A B : Mat3) :
    (A.mul B).transpose = (B.transpose).mul (A.transpose) := by
  apply extMat <;> simp [mul, transpose] <;> ring

theorem id3_mul (A : Mat3) : id3.mul A = A := by
  apply extMat <;> simp [mul, id3]

theorem det3_mul (A B : Mat3) : det3 (A.mul B) = det3 A * det3 B := by
  simp only [det3, mul]
  ring

end Mat3

/-- The product of two rotation blocks is a rotation block. -/
theorem IsRotation.mul {A B : Mat3} (hA : IsRotation A) (hB : IsRotation B) :
    IsRotation (A.mul B) := by
  constructor
  · rw [Mat3.transpose_mul, Mat3.mul_assoc', ← Mat3.mul_assoc' A.transpose,
      hA.1, Mat3.id3_mul, hB.1]
  · rw [Mat3.det3_mul, hA.2, hB.2, one_mul]

/-- Axis rotation about x, parametrised by a cosine/sine pair. -/
def rotX (c s : ℚ) : Mat3 := ⟨1, 0, 0, 0, c, -s, 0, s, c⟩

/-- Axis rotation about y, parametrised by a cosine/sine pair. -/
def rotY (c s : ℚ) : Mat3 := ⟨c, 0, s, 0, 1, 0, -s, 0, c⟩

/-- Axis rotation about z, parametrised by a cosine/sine pair. -/
def rotZ (c s : ℚ) : Mat3 := ⟨c, -s, 0, s, c, 0, 0, 0, 1⟩

/-- Modelled from the spec: the external helper
`construct_rotm_from_euler(a, b, c, "zyx")` used by the notebook's noise
injection — the product `Rz * Ry * Rx` of axis rotations, here parametrised
by the cosine/sine pairs of the three angles. -/
def rotmFromEulerZYX (cz sz cy sy cx sx : ℚ) : Mat3 :=
  (rotZ cz sz).mul ((rotY cy sy).mul (rotX cx sx))

/-- Modelled from the spec: the external helper
`construct_rigid_transformation` — a rigid transform from a rotation block
and a translation. -/
def rigidTransformOf (R : Mat3) (t : Vec3) : RigidPose := ⟨R, t⟩

/-- Homogeneous 4-by-4 product of two rigid transforms: the notebook corrupts
a pose as `matrices_copy[random_index] @ random_transform`. -/
def composePose (P T : RigidPose) : RigidPose := ⟨P.R.mul T.R, (P.R.mulVec T.t) + P.t⟩

theorem rotX_isRotation {c s : ℚ} (h : c * c + s * s = 1) : IsRotation (rotX c s) := by
  constructor
  · apply Mat3.extMat <;>
      · simp [rotX, Mat3.mul, Mat3.transpose, Mat3.id3]
        try first
        | linear_combination h
        | ring
  · simp only [Mat3.det3, rotX]
    linear_combination h

theorem rotY_isRotation {c s : ℚ} (h : c * c + s * s = 1) : IsRotation (rotY c s) := by
  constructor
  · apply Mat3.extMat <;>
      · simp [rotY, Mat3.mul, Mat3.transpose, Mat3.id3]
        try first
        | linear_combination h
        | ring
  · simp only [Mat3.det3, rotY]
    linear_combination h

theorem rotZ_isRotation {c s : ℚ} (h : c * c + s * s = 1) : IsRotation (rotZ c s) := by
  constructor
  · apply Mat3.extMat <;>
      · simp [rotZ, Mat3.mul, Mat3.transpose, Mat3.id3]
        try first
        | linear_combination h
        | ring
  · simp only [Mat3.det3, rotZ]
    linear_combination h

/-- Any Euler-angle rotation matrix is a rotation block. -/
theorem rotmFromEulerZYX_isRotation {cz sz cy sy cx sx : ℚ}
    (hz : cz * cz + sz * sz = 1) (hy : cy * cy + sy * sy = 1)
    (hx : cx * cx + sx * sx = 1) :
    IsRotation (rotmFromEulerZYX cz sz cy sy cx sx) :=
  (rotZ_isRotation hz).mul ((rotY_isRotation hy).mul (rotX_isRotation hx))

end PivotCal

deriving instance DecidableEq for Except

namespace PivotCal

/-- Exact synthetic test data: five well-conditioned poses consistent with
tool-tip offset `(1,0,0)` and pivot `(0,0,0)` (each `t_i = -R_i * offset`),
with rotations the identity and quarter/half turns about the axes. -/
def p1 : RigidPose := ⟨Mat3.id3, ⟨-1, 0, 0⟩⟩

/-- Quarter turn about z, translation consistent with the synthetic pivot. -/
def p2 : RigidPose := ⟨⟨0, -1, 0, 1, 0, 0, 0, 0, 1⟩, ⟨0, -1, 0⟩⟩

/-- Quarter turn about x, translation consistent with the synthetic pivot. -/
def p3 : RigidPose := ⟨⟨1, 0, 0, 0, 0, -1, 0, 1, 0⟩, ⟨-1, 0, 0⟩⟩

/-- Quarter turn about y, translation consistent with the synthetic pivot. -/
def p4 : RigidPose := ⟨⟨0, 0, 1, 0, 1, 0, -1, 0, 0⟩, ⟨0, 0, 1⟩⟩

/-- Half turn about z, translation consistent with the synthetic pivot. -/
def p5 : RigidPose := ⟨⟨-1, 0, 0, 0, -1, 0, 0, 0, 1⟩, ⟨1, 0, 0⟩⟩

/-- Four exactly consistent, well-conditioned poses. -/
def ps4 : List RigidPose := [p1, p2, p3, p4]

/-- Five exactly consistent, well-conditioned poses. -/
def ps5 : List RigidPose := [p1, p2, p3, p4, p5]

/-- Four identical poses: a rank-deficient (degenerate) geometry. -/
def ps4deg : List RigidPose := [p1, p1, p1, p1]

/-- The poses of `ps4` with the first translation perturbed (noisy data with
a nonzero fitting residual). -/
def psN : List RigidPose := [⟨Mat3.id3, ⟨-1, 0, 1⟩⟩, p2, p3, p4]

/-- The exact solution of the clean synthetic data. -/
def solClean : PivotSolution := ⟨⟨1, 0, 0⟩, ⟨0, 0, 0⟩, 0⟩

/-- The least-squares solution of the perturbed data `psN`. -/
def solNoisy : PivotSolution :=
  ⟨⟨49/54, 7/54, -11/54⟩, ⟨-7/54, 5/54, 11/54⟩, 4/27⟩

/-- A small RANSAC configuration: 2 trials, threshold 1, half consensus. -/
def rcfg : RansacConfig := ⟨2, 1, 1/2⟩

/-- An unreachable configuration: zero threshold and full consensus. -/
def cfgTight : RansacConfig := ⟨2, 0, 1⟩

/-- C2: for every pose set on which it succeeds, `solve_pivot` returns the
least-squares solution of the stacked 3N-by-6 AOS system `A x = b` with
`x = [offset; p]` — each pose contributing the blocks `R_i` and `-I_3` to `A`
and `-t_i` to `b` (see `aosRes` and `stackedResidualSq`): the returned
`(offset, pivot)` minimises `‖A x - b‖²` over all `x`. -/
theorem solve_pivot_least_squares_aos
    (poses : List RigidPose) (sol : PivotSolution)
    (h : solve_pivot poses = Except.ok sol) :
    ∀ o p : Vec3,
      stackedResidualSq poses sol.offset sol.pivot ≤ stackedResidualSq poses o p := by
  obtain ⟨hrt, hres⟩ := solve_pivot_gradient_zero h
  exact fun o p => stacked_min_of_gradient_zero poses sol.offset sol.pivot hrt hres o p

/-- Witness for C2 at the concrete clean pose set. -/
theorem solve_pivot_least_squares_aos_witness :
    solve_pivot ps4 = Except.ok solClean
      ∧ stackedResidualSq ps4 solClean.offset solClean.pivot
          ≤ stackedResidualSq ps4 Vec3.zero Vec3.zero := by
  have hok : solve_pivot ps4 = Except.ok solClean := by with_unfolding_all decide
  exact ⟨hok, solve_pivot_least_squares_aos ps4 solClean hok Vec3.zero Vec3.zero⟩

/-- C3: for every pose set on which it succeeds, the residual returned by
`solve_pivot` is the (squared) RMS over all poses of the Euclidean distance
between each predicted pivot position `R_i*offset + t_i` and the centroid of
those predictions. -/
theorem solve_pivot_residual_rms_about_centroid
    (poses : List RigidPose) (sol : PivotSolution)
    (h : solve_pivot poses = Except.ok sol) :
    sol.residualSq = rmsAboutCentroidSq poses sol.offset := by
  obtain ⟨h4, -, -, -, hres⟩ := solve_pivot_ok_spec h
  rw [hres, residualSqOf_eq_rms _ _ (length_cast_ne_zero h4)]

set_option maxRecDepth 4000 in
/-- Witness for C3 at the concrete noisy pose set (nonzero residual). -/
theorem solve_pivot_residual_rms_about_centroid_witness :
    solve_pivot psN = Except.ok solNoisy
      ∧ solNoisy.residualSq = rmsAboutCentroidSq psN solNoisy.offset := by
  have hok : solve_pivot psN = Except.ok solNoisy := by with_unfolding_all decide
  exact ⟨hok, solve_pivot_residual_rms_about_centroid psN solNoisy hok⟩

/-- C6 counterexample: a rank-deficient system with N = 4 poses makes
`solve_pivot` fail with `degenerateGeometry`, not `insufficientData`, so
"InsufficientDataError whenever N < 4 or the system is rank-deficient" is
false as stated (the spec's own error taxonomy reserves the separate
`DegenerateGeometryError` for rank deficiency). -/
theorem solve_pivot_degenerate_error_counterexample :
    solve_pivot ps4deg = Except.error CalibrationError.degenerateGeometry
      ∧ CalibrationError.degenerateGeometry ≠ CalibrationError.insufficientData :=
  ⟨by with_unfolding_all decide, by decide⟩

/-- C6 amended: `solve_pivot` fails fast with `insufficientData` exactly when
N < 4; with N ≥ 4 and a rank-deficient system it fails fast with
`degenerateGeometry` (the taxonomy's error for rank deficiency); with N = 3
it returns `insufficientData` and with the 4 well-conditioned poses `ps4` it
succeeds. -/
theorem solve_pivot_error_boundaries :
    (∀ poses : List RigidPose, poses.length < 4 →
        solve_pivot poses = Except.error CalibrationError.insufficientData)
    ∧ (∀ poses : List RigidPose, ¬ poses.length < 4 →
        Mat3.det3 (aosMatrix poses) = 0 →
        solve_pivot poses = Except.error CalibrationError.degenerateGeometry)
    ∧ solve_pivot [p1, p2, p3] = Except.error CalibrationError.insufficientData
    ∧ solve_pivot ps4 = Except.ok solClean := by
  refine ⟨?_, ?_, by with_unfolding_all decide, by with_unfolding_all decide⟩
  · intro poses hlen
    rw [solve_pivot, if_pos hlen]
  · intro poses hlen hdet
    rw [solve_pivot, if_neg hlen, if_pos hdet]

/-- Witness for the amended C6 at the degenerate concrete input. -/
theorem solve_pivot_error_boundaries_witness :
    solve_pivot ps4deg = Except.error CalibrationError.degenerateGeometry :=
  solve_pivot_error_boundaries.2.1 ps4deg (by decide) (by with_unfolding_all decide)

/-- C1: `solve_pivot_ransac` follows the RANSAC algorithm: it runs exactly
`num_iterations` trials; every trial draws a seeded random subset and solves
it with the deterministic solver, scoring the candidate against the FULL pose
set; a pose is an inlier iff the distance from its predicted pivot position
`R_i*offset_c + t_i` to the candidate pivot is at most `inlier_threshold_mm`
(squared comparison); on success the selected candidate maximises the inlier
count over all trial candidates and meets the consensus bound, and the
returned solution is the solver refit on ALL inliers of that candidate in the
full pose set (not just the original random subset). -/
theorem ransac_follows_spec_algorithm
    (poses : List RigidPose) (cfg : RansacConfig) (seed : Nat)
    (sol : PivotSolution) (used : Nat) (frac : ℚ)
    (h : solve_pivot_ransac poses cfg seed = Except.ok (sol, used, frac)) :
    (ransacTrials poses cfg.inlier_threshold_mm cfg.num_iterations seed).length
        = cfg.num_iterations
    ∧ (∀ oc ∈ ransacTrials poses cfg.inlier_threshold_mm cfg.num_iterations seed,
        ∃ s' : Nat, oc = (ransacTrial poses cfg.inlier_threshold_mm s').fst)
    ∧ ∃ best : RansacCandidate,
        selectBest (ransacTrials poses cfg.inlier_threshold_mm cfg.num_iterations seed)
            = some best
        ∧ some best ∈ ransacTrials poses cfg.inlier_threshold_mm cfg.num_iterations seed
        ∧ (∀ c : RansacCandidate,
            some c ∈ ransacTrials poses cfg.inlier_threshold_mm cfg.num_iterations seed →
              c.inlierCount ≤ best.inlierCount)
        ∧ best.inlierCount = countInliers cfg.inlier_threshold_mm best.sol poses
        ∧ (∀ q : RigidPose, isInlier cfg.inlier_threshold_mm best.sol q = true
            ↔ Vec3.normSq (predPivot q best.sol.offset - best.sol.pivot)
                ≤ cfg.inlier_threshold_mm * cfg.inlier_threshold_mm)
        ∧ cfg.min_consensus_fraction * (poses.length : ℚ) ≤ (best.inlierCount : ℚ)
        ∧ solve_pivot
            (poses.filter (fun q => isInlier cfg.inlier_threshold_mm best.sol q))
              = Except.ok sol
        ∧ used = best.inlierCount
        ∧ frac = (best.inlierCount : ℚ) / (poses.length : ℚ) := by
  obtain ⟨best, hsel, hcons, hfit, hu, hf⟩ := solve_pivot_ransac_ok_spec h
  have hmem := selectBest_mem hsel
  obtain ⟨s', hs'⟩ :=
    ransacTrials_shape poses cfg.inlier_threshold_mm cfg.num_iterations seed _ hmem
  have hcnt := (ransacTrial_some hs'.symm).2
  refine ⟨ransacTrials_length _ _ _ _, ransacTrials_shape _ _ _ _, best, hsel, hmem,
    ?_, hcnt, fun q => by simp [isInlier], hcons, hfit, hu, hf⟩
  intro c hc
  rcases selectBest_max hsel c hc with hlt | ⟨he, -⟩
  · exact le_of_lt hlt
  · exact le_of_eq he

/-- Witness for C1: a successful concrete run on the clean five-pose data. -/
theorem ransac_follows_spec_algorithm_witness :
    solve_pivot_ransac ps5 rcfg 1 = Except.ok (solClean, 5, 1)
      ∧ (ransacTrials ps5 rcfg.inlier_threshold_mm rcfg.num_iterations 1).length
          = rcfg.num_iterations := by
  have hok : solve_pivot_ransac ps5 rcfg 1 = Except.ok (solClean, 5, 1) := by
    with_unfolding_all decide
  exact ⟨hok, (ransac_follows_spec_algorithm ps5 rcfg 1 solClean 5 1 hok).1⟩

/-- C4 counterexample: an admissible contaminated input (M = 0 corrupted
poses, so M/N = 0 is below 1 - min_consensus_fraction) on which
`solve_pivot_ransac` returns exactly the `solve_pivot` output, so every error
measure of the two coincides and RANSAC's error is NOT strictly less than
plain least squares'. -/
theorem ransac_not_strictly_better_counterexample :
    solve_pivot_ransac ps5 rcfg 1 = Except.ok (solClean, 5, 1)
      ∧ solve_pivot ps5 = Except.ok solClean
      ∧ ¬ solClean.residualSq < solClean.residualSq :=
  ⟨by with_unfolding_all decide, by with_unfolding_all decide, lt_irrefl _⟩

/-- C4 amended: when the best candidate's consensus covers the whole pose set
(as on clean data, M = 0), the RANSAC refit is `solve_pivot` on the full set,
so the two solutions and their errors coincide — RANSAC's error is never
worse there, but not strictly better; strict improvement on contaminated
data is a statistical expectation, not a per-input guarantee. -/
theorem ransac_full_inlier_refit_equals_plain_solve
    (poses : List RigidPose) (cfg : RansacConfig) (seed : Nat)
    (sol : PivotSolution) (used : Nat) (frac : ℚ)
    (h : solve_pivot_ransac poses cfg seed = Except.ok (sol, used, frac))
    (hall : used = poses.length) :
    solve_pivot poses = Except.ok sol := by
  obtain ⟨best, hsel, -, hfit, hu, -⟩ := solve_pivot_ransac_ok_spec h
  have hmem := selectBest_mem hsel
  obtain ⟨s', hs'⟩ :=
    ransacTrials_shape poses cfg.inlier_threshold_mm cfg.num_iterations seed _ hmem
  have hcnt := (ransacTrial_some hs'.symm).2
  have hlen : (poses.filter (fun q => isInlier cfg.inlier_threshold_mm best.sol q)).length
      = poses.length := by
    rw [countInliers] at hcnt
    omega
  have hfilter : poses.filter (fun q => isInlier cfg.inlier_threshold_mm best.sol q)
      = poses :=
    (List.filter_sublist poses).eq_of_length hlen
  rw [hfilter] at hfit
  exact hfit

/-- Witness for the amended C4 on the clean data: the refit over all five
inliers reproduces the plain least-squares solution. -/
theorem ransac_full_inlier_refit_equals_plain_solve_witness :
    solve_pivot ps5 = Except.ok solClean :=
  ransac_full_inlier_refit_equals_plain_solve ps5 rcfg 1 solClean 5 1
    (by with_unfolding_all decide) (by decide)

/-- Decidable form of "every candidate is below the consensus bound". -/
def allBelow (l : List (Option RansacCandidate)) (m : ℚ) : Bool :=
  l.all fun oc =>
    match oc with
    | none => true
    | some c => decide ((c.inlierCount : ℚ) < m)

theorem allBelow_spec {l : List (Option RansacCandidate)} {m : ℚ}
    (h : allBelow l m = true) :
    ∀ c : RansacCandidate, some c ∈ l → (c.inlierCount : ℚ) < m := by
  intro c hc
  have := List.all_eq_true.mp h _ hc
  simpa using this

/-- C5: when no trial candidate's inlier count reaches
`min_consensus_fraction` of the pose count, `solve_pivot_ransac` returns the
explicit `consensusNotReached` error value to the caller — an ordinary
result, not a crash — and no (partial) solution. -/
theorem ransac_consensus_not_reached
    (poses : List RigidPose) (cfg : RansacConfig) (seed : Nat)
    (h4 : ¬ poses.length < 4)
    (hbelow : ∀ c : RansacCandidate,
      some c ∈ ransacTrials poses cfg.inlier_threshold_mm cfg.num_iterations seed →
        (c.inlierCount : ℚ) < cfg.min_consensus_fraction * (poses.length : ℚ)) :
    solve_pivot_ransac poses cfg seed
      = Except.error CalibrationError.consensusNotReached := by
  rw [solve_pivot_ransac, if_neg h4]
  cases hsel : selectBest (ransacTrials poses cfg.inlier_threshold_mm cfg.num_iterations seed) with
  | none => rfl
  | some best =>
      have hb := hbelow best (selectBest_mem hsel)
      show (if (best.inlierCount : ℚ) < cfg.min_consensus_fraction * (poses.length : ℚ)
        then Except.error CalibrationError.consensusNotReached
        else _) = Except.error CalibrationError.consensusNotReached
      rw [if_pos hb]

set_option maxRecDepth 4000 in
/-- Witness for C5: a zero threshold on the noisy data reaches no consensus. -/
theorem ransac_consensus_not_reached_witness :
    solve_pivot_ransac psN cfgTight 1
      = Except.error CalibrationError.consensusNotReached :=
  ransac_consensus_not_reached psN cfgTight 1 (by decide)
    (allBelow_spec (by with_unfolding_all decide))

/-- C7: with identical inputs and identical seed the calibrator returns
identical results (it is a pure function of poses, config and seed: all
randomness comes from the explicitly passed seed, there is no global mutable
state), and candidate selection is order-independent: permuting the trial
list never changes the selected (inlier count, tie-break residual) key. -/
theorem ransac_reproducible_and_order_independent :
    (∀ (poses : List RigidPose) (cfg : RansacConfig) (s1 s2 : Nat), s1 = s2 →
        solve_pivot_ransac poses cfg s1 = solve_pivot_ransac poses cfg s2)
    ∧ (∀ l l' : List (Option RansacCandidate), List.Perm l l' →
        Option.map candKey (selectBest l) = Option.map candKey (selectBest l')) :=
  ⟨fun _ _ _ _ hseed => by rw [hseed], fun _ _ hperm => selectBest_key_perm hperm⟩

/-- Witness for C7: two identical concrete calls agree, and a concrete
transposition of a trial list preserves the selected key. -/
theorem ransac_reproducible_and_order_independent_witness :
    solve_pivot_ransac ps5 rcfg 1 = solve_pivot_ransac ps5 rcfg 1
      ∧ Option.map candKey (selectBest [none, some (RansacCandidate.mk solClean 5)])
          = Option.map candKey (selectBest [some (RansacCandidate.mk solClean 5), none]) :=
  ⟨ransac_reproducible_and_order_independent.1 ps5 rcfg 1 1 rfl,
   ransac_reproducible_and_order_independent.2 _ _
     (List.Perm.swap (some (RansacCandidate.mk solClean 5)) none [])⟩

/-- C10: corrupting a pose by right-multiplying it with a rigid transform
built from an Euler-angle rotation (any angles - in particular the bounded
ones the notebook draws) and any translation preserves the `RigidPose`
invariant: the corrupted pose's rotation block is still orthonormal with
determinant +1, so the orthonormality (`invalidPose`) check never fires on
this kind of outlier. -/
theorem corrupted_pose_keeps_rotation_invariant
    (P : RigidPose) (cz sz cy sy cx sx : ℚ) (t : Vec3)
    (hP : IsRotation P.R)
    (hz : cz * cz + sz * sz = 1) (hy : cy * cy + sy * sy = 1)
    (hx : cx * cx + sx * sx = 1) :
    IsRotation
      (composePose P (rigidTransformOf (rotmFromEulerZYX cz sz cy sy cx sx) t)).R :=
  hP.mul (rotmFromEulerZYX_isRotation hz hy hx)

/-- Witness for C10: a concrete pose corrupted with cos/sin pairs (3/5, 4/5),
(1, 0) and (0, 1) and translation (1, 2, 3) keeps the invariant. -/
theorem corrupted_pose_keeps_rotation_invariant_witness :
    IsRotation p2.R
      ∧ IsRotation
          (composePose p2 (rigidTransformOf
            (rotmFromEulerZYX (3/5) (4/5) 1 0 0 1) ⟨1, 2, 3⟩)).R := by
  have hP : IsRotation p2.R := by
    constructor
    · with_unfolding_all decide
    · with_unfolding_all decide
  exact ⟨hP, corrupted_pose_keeps_rotation_invariant p2 (3/5) (4/5) 1 0 0 1 ⟨1, 2, 3⟩ hP
    (by with_unfolding_all decide) (by with_unfolding_all decide)
    (by with_unfolding_all decide)⟩

end PivotCal

